import Mathlib

/-!
Shallow embedding of the phoneshift symbol model and pattern-matching engine
(`src/symbol.rs`, `src/pat.rs`), together with theorems settling the spec
claims about it.

Modelling conventions:
* `Terminal` equality/ordering/hashing in the source compare the allocation
  pointer of the underlying `Rc<str>`.  The allocator is modelled by an
  explicit fresh identifier passed to `Terminal.new`: two independent `new`
  calls receive distinct identifiers, clones share one.
* Rust slice indexing `terms[offset..]` panics when `offset > terms.len()`;
  fallible evaluation is modelled with `Option`, `none` standing for a panic.
* Mutation (`Match::append`, `Table::new`'s in-place dedup loop) is modelled
  by explicit state passing.
-/

namespace Phoneshift

/-- Embeds `Terminal` (src/symbol.rs).  `id` models the allocation identity
of the `Rc<str>` backing `desc`; `desc` is the display text. -/
structure Terminal where
  id : Nat
  desc : String
deriving DecidableEq, Repr

/-- Embeds `Terminal::new` (src/symbol.rs lines 69-77).  The source allocates
a fresh `Rc<str>`; the allocator is modelled by the explicit `id` argument,
distinct across independent calls. -/
def Terminal.new (id : Nat) (desc : String) : Terminal :=
  ⟨id, desc⟩

/-- Embeds `impl PartialEq for Terminal` (src/symbol.rs lines 36-40):
`self.ptr() == other.ptr()`, i.e. comparison of allocation identities. -/
def Terminal.ptrEq (a b : Terminal) : Bool :=
  a.id == b.id

/-- Embeds `impl Ord for Terminal` (src/symbol.rs lines 48-52):
`self.ptr().cmp(&other.ptr())`. -/
def Terminal.cmp (a b : Terminal) : Ordering :=
  compare a.id b.id

/-- Embeds `impl Hash for Terminal` (src/symbol.rs lines 54-61): the hasher
is fed the allocation pointer only, modelled as the identity itself. -/
def Terminal.hashOf (t : Terminal) : Nat :=
  t.id

mutual

/-- Embeds `Symbol` (src/symbol.rs lines 16-20). -/
inductive Symbol where
  | term : Terminal → Symbol
  | nonTerm : NonTerminal → Symbol

/-- Embeds `NonTerminal` / `NonTerminalInner` (src/symbol.rs lines 85-94):
a description and an ordered member list.  The inductive structure is
inherently acyclic, matching the acyclicity the source requires of callers. -/
inductive NonTerminal where
  | mk : String → List Symbol → NonTerminal

end

/-- Embeds `NonTerminal::members` (src/symbol.rs lines 157-159). -/
def NonTerminal.members : NonTerminal → List Symbol
  | .mk _ ms => ms

/-- Embeds the description field of `NonTerminalInner`. -/
def NonTerminal.descOf : NonTerminal → String
  | .mk d _ => d

mutual

/-- Membership test of one member, as in the `match` arms inside
`NonTerminal::contains` (src/symbol.rs lines 147-151): a `Term` member is
compared by identity, a `NonTerm` member is searched recursively. -/
def Symbol.containsTerm : Symbol → Terminal → Bool
  | .term other, t => Terminal.ptrEq other t
  | .nonTerm other, t => NonTerminal.contains other t

/-- Embeds `NonTerminal::contains` (src/symbol.rs lines 145-155). -/
def NonTerminal.contains : NonTerminal → Terminal → Bool
  | .mk _ ms, t => membersContain ms t

/-- The `for member in self.members()` loop of `NonTerminal::contains`:
returns `true` as soon as a member contains the terminal, `false` once the
list is exhausted. -/
def membersContain : List Symbol → Terminal → Bool
  | [], _ => false
  | m :: rest, t => Symbol.containsTerm m t || membersContain rest t

end

/-- Embeds `MatchSegment` (src/pat.rs lines 3-7). -/
structure MatchSegment where
  start : Nat
  len : Nat
deriving DecidableEq, Repr

/-- Embeds `Match` (src/pat.rs lines 9-12). -/
structure Match where
  segments : List MatchSegment
deriving DecidableEq, Repr

/-- Embeds `Match::matched` (src/pat.rs lines 15-17): `segments.len() > 0`. -/
def Match.matched (m : Match) : Bool :=
  decide (m.segments.length > 0)

/-- Embeds `Match::unmatched` (src/pat.rs lines 19-21): `segments.len() == 0`. -/
def Match.unmatched (m : Match) : Bool :=
  m.segments.length == 0

/-- Embeds `Match::general_start` (src/pat.rs lines 29-35): start of the
first segment when matched, `0` otherwise. -/
def Match.general_start : Match → Nat
  | ⟨[]⟩ => 0
  | ⟨seg :: _⟩ => seg.start

/-- Embeds `Match::general_end` (src/pat.rs lines 41-48): end of the last
segment when matched, `0` otherwise. -/
def Match.general_end (m : Match) : Nat :=
  match m.segments.getLast? with
  | some seg => seg.start + seg.len
  | none => 0

/-- Embeds `Match::general_len` (src/pat.rs lines 37-39). -/
def Match.general_len (m : Match) : Nat :=
  m.general_end - m.general_start

/-- Embeds `Match::add_offset` (src/pat.rs lines 23-27). -/
def Match.add_offset (m : Match) (offset : Nat) : Match :=
  ⟨m.segments.map fun seg => ⟨seg.start + offset, seg.len⟩⟩

/-- The merging branch of `Match::append` (src/pat.rs lines 59-62): the
first segment of `other` is removed, its length is added to the last
segment of `self`, and the remaining segments of `other` are appended. -/
def Match.mergeSegments (self other : Match) : Match :=
  match self.segments.getLast?, other.segments with
  | some lastSeg, first :: rest =>
      ⟨self.segments.dropLast ++ ⟨lastSeg.start, lastSeg.len + first.len⟩ :: rest⟩
  | _, _ => self

/-- Embeds `Match::append` (src/pat.rs lines 50-65).  The `FnOnce` closure
becomes a function that may itself panic (`none`); it is only invoked when
`self` is matched, exactly as in the source. -/
def Match.append (self : Match) (right : Match → Option Match) : Option Match :=
  if self.matched then
    (right self).map fun other =>
      if other.unmatched then other
      else if self.general_end = other.general_start then
        self.mergeSegments other
      else self
  else some self

/-- Embeds `Pattern` (src/pat.rs lines 68-74). -/
inductive Pattern where
  | terms : List Terminal → Pattern
  | nonTerm : NonTerminal → Pattern
  | and : Pattern → Pattern → Pattern
  | or : Pattern → Pattern → Pattern

/-- Embeds `<[T]>::starts_with` as used in `match_term_pat`: element-wise
equality of a leading run, each comparison via `Terminal`'s `PartialEq`
(identity). -/
def startsWithTerms : List Terminal → List Terminal → Bool
  | [], _ => true
  | _ :: _, [] => false
  | a :: as_, b :: bs => Terminal.ptrEq b a && startsWithTerms as_ bs

/-- Embeds `match_term_pat` (src/pat.rs lines 82-94).  The slice
`terms[offset..]` panics when `offset > terms.len()`, hence `none` there. -/
def matchTermPat (pat : List Terminal) (terms : List Terminal) (offset : Nat) :
    Option Match :=
  if offset ≤ terms.length then
    some ⟨if startsWithTerms pat (terms.drop offset) then
            [⟨offset, pat.length⟩]
          else []⟩
  else none

/-- Embeds `match_non_term_pat` (src/pat.rs lines 96-110).  The indexing
`terms[offset]` is guarded by `terms.len() == offset + 1`, so it never
panics; `Option.any` over `terms[offset]?` renders the guarded access. -/
def matchNonTermPat (n : NonTerminal) (terms : List Terminal) (offset : Nat) :
    Option Match :=
  some ⟨if terms.length == offset + 1
            && Option.any (fun t => n.contains t) terms[offset]? then
          [⟨offset, 1⟩]
        else []⟩

/-- Embeds `match_pattern` (src/pat.rs lines 137-149) together with
`match_and_pat` (lines 112-121) and `match_or_pat` (lines 123-135), which
only dispatch back into `match_pattern`. -/
def matchPattern : Pattern → List Terminal → Nat → Option Match
  | .terms pat, terms, offset => matchTermPat pat terms offset
  | .nonTerm n, terms, offset => matchNonTermPat n terms offset
  | .and left right, terms, offset =>
      (matchPattern left terms offset).bind fun lmatch =>
        lmatch.append fun lm => matchPattern right terms lm.general_end
  | .or left right, terms, offset =>
      (matchPattern left terms offset).bind fun lmatch =>
        if lmatch.matched then some lmatch
        else matchPattern right terms offset

/-- Embeds `Pattern::match_terms` (src/pat.rs lines 77-79). -/
def Pattern.match_terms (p : Pattern) (terms : List Terminal) : Option Match :=
  matchPattern p terms 0

/-- A description-keyed table entry.  The source `Table<S>` is generic over
any `S: DescKey`; the model carries the description key together with a
payload `id` that distinguishes entries sharing a description. -/
structure Entry where
  desc : String
  id : Nat
deriving DecidableEq, Repr

/-- The comparison `DescKey::cmp_desc` (src/symbol.rs lines 11-13) as the
relation Rust's stable `sort_by` sorts with. -/
def descLe (a b : Entry) : Prop :=
  a.desc ≤ b.desc

instance : DecidableRel descLe := fun a b => by
  unfold descLe; infer_instance

instance : IsTotal Entry descLe :=
  ⟨fun a b => le_total a.desc b.desc⟩

instance : IsTrans Entry descLe :=
  ⟨fun _ _ _ h h' => le_trans h h'⟩

/-- Embeds `elems.sort_by(DescKey::cmp_desc)` (src/symbol.rs line 189).
Rust's `sort_by` is a stable sort; it is modelled by insertion sort, whose
stability is proved below. -/
def sortByDesc (l : List Entry) : List Entry :=
  List.insertionSort descLe l

/-- Embeds the dedup loop of `Table::new` (src/symbol.rs lines 191-198):
while scanning adjacent pairs, an element whose successor carries the same
description is removed (the later one is kept). -/
def dedupKeepLast : List Entry → List Entry
  | [] => []
  | [x] => [x]
  | x :: y :: rest =>
      if x.desc = y.desc then dedupKeepLast (y :: rest)
      else x :: dedupKeepLast (y :: rest)

/-- Embeds `Table::new` (src/symbol.rs lines 184-201): collect, stable-sort
by description, collapse adjacent equal descriptions keeping the later
element. -/
def tableNew (l : List Entry) : List Entry :=
  dedupKeepLast (sortByDesc l)

/-! ### Basic facts about `Match` -/

theorem Match.matched_iff {m : Match} : m.matched = true ↔ m.segments ≠ [] := by
  cases m with
  | mk segs => cases segs <;> simp [Match.matched]

theorem Match.unmatched_iff {m : Match} : m.unmatched = true ↔ m.segments = [] := by
  cases m with
  | mk segs => cases segs <;> simp [Match.unmatched]

theorem Match.unmatched_eq_not_matched (m : Match) : m.unmatched = !m.matched := by
  cases m with
  | mk segs => cases segs <;> simp [Match.matched, Match.unmatched]

theorem Match.eq_empty_of_unmatched {m : Match} (h : m.unmatched = true) :
    m = ⟨[]⟩ := by
  cases m with
  | mk segs => cases Match.unmatched_iff.mp h; rfl

theorem Match.general_end_concat (init : List MatchSegment) (lastSeg : MatchSegment) :
    Match.general_end ⟨init ++ [lastSeg]⟩ = lastSeg.start + lastSeg.len := by
  simp [Match.general_end]

theorem Match.general_start_cons (first : MatchSegment) (rest : List MatchSegment) :
    Match.general_start ⟨first :: rest⟩ = first.start :=
  rfl

/-! ### Characterization of `starts_with` -/

/-- The default used only to express out-of-range `getD` reads; never actually
selected in the characterizations below. -/
def dfltTerm : Terminal := ⟨0, ""⟩

theorem startsWithTerms_iff :
    ∀ (pat hay : List Terminal),
      startsWithTerms pat hay = true ↔
        pat.length ≤ hay.length ∧
          ∀ i < pat.length,
            Terminal.ptrEq (hay.getD i dfltTerm) (pat.getD i dfltTerm) = true
  | [], hay => by simp [startsWithTerms]
  | a :: as_, [] => by simp [startsWithTerms]
  | a :: as_, b :: bs => by
    rw [startsWithTerms, Bool.and_eq_true, startsWithTerms_iff as_ bs]
    constructor
    · rintro ⟨hab, hlen, hrest⟩
      refine ⟨by simpa using Nat.succ_le_succ hlen, ?_⟩
      intro i hi
      cases i with
      | zero => simpa [List.getD] using hab
      | succ j => simpa [List.getD] using hrest j (by simpa using hi)
    · rintro ⟨hlen, hall⟩
      refine ⟨by simpa [List.getD] using hall 0 (by simp), by simpa using hlen, ?_⟩
      intro i hi
      simpa [List.getD] using hall (i + 1) (by simpa using Nat.succ_lt_succ hi)

theorem startsWithTerms_length_le {pat hay : List Terminal}
    (h : startsWithTerms pat hay = true) : pat.length ≤ hay.length :=
  ((startsWithTerms_iff pat hay).mp h).1

/-! ### Claim theorems: atomic patterns -/

/-- Claim C1: for every non-terminal class `V`, input and offset, evaluating
`Pattern::NonTerm(V)` matches iff `offset + 1 == input.len()` and `V`
contains `input[offset]`; on success the result is exactly the single
segment `{start: offset, len: 1}`, otherwise it is unmatched.  (Via
`match_terms` this is the instance `offset = 0`.) -/
theorem nonTermPat_matches_iff_last_position
    (V : NonTerminal) (terms : List Terminal) (offset : Nat) :
    ∃ m : Match, matchPattern (.nonTerm V) terms offset = some m
      ∧ (m.matched = true ↔
          offset + 1 = terms.length
            ∧ Option.any (fun t => V.contains t) terms[offset]? = true)
      ∧ (m.matched = true → m = ⟨[⟨offset, 1⟩]⟩)
      ∧ (m.matched = false → m = ⟨[]⟩) := by
  by_cases hc :
      (terms.length == offset + 1
        && Option.any (fun t => V.contains t) terms[offset]?) = true
  · refine ⟨⟨[⟨offset, 1⟩]⟩, ?_, ?_, fun _ => rfl, ?_⟩
    · show matchNonTermPat V terms offset = _
      rw [matchNonTermPat, if_pos hc]
    · simp only [Bool.and_eq_true, beq_iff_eq] at hc
      simp [Match.matched, hc.1.symm, hc.2]
    · intro hfalse
      simp [Match.matched] at hfalse
  · refine ⟨⟨[]⟩, ?_, ?_, ?_, fun _ => rfl⟩
    · show matchNonTermPat V terms offset = _
      rw [matchNonTermPat, if_neg hc]
    · simp only [Bool.and_eq_true, beq_iff_eq] at hc
      constructor
      · intro htrue; simp [Match.matched] at htrue
      · intro hgood; exact absurd ⟨hgood.1.symm, hgood.2⟩ hc
    · intro htrue
      simp [Match.matched] at htrue

/-- Claim C5: for every terminal sequence `seq`, input and offset (in range,
since the slice `input[offset..]` is taken), `Pattern::Terms(seq)` matches
iff `input[offset..]` begins with `seq` under element-wise identity equality
of terminals; on success the result is the single segment
`{start: offset, len: seq.len()}`, otherwise it is unmatched. -/
theorem termsPat_matches_iff_begins_with
    (seq terms : List Terminal) (offset : Nat) (h : offset ≤ terms.length) :
    ∃ m : Match, matchPattern (.terms seq) terms offset = some m
      ∧ (m.matched = true ↔
          offset + seq.length ≤ terms.length
            ∧ ∀ i < seq.length,
                Terminal.ptrEq (terms.getD (offset + i) dfltTerm)
                  (seq.getD i dfltTerm) = true)
      ∧ (m.matched = true → m = ⟨[⟨offset, seq.length⟩]⟩)
      ∧ (m.matched = false → m = ⟨[]⟩) := by
  have hgetD : ∀ i, (terms.drop offset).getD i dfltTerm
      = terms.getD (offset + i) dfltTerm := by
    intro i
    rw [List.getD_eq_getElem?_getD, List.getD_eq_getElem?_getD,
      List.getElem?_drop]
  have hchar : startsWithTerms seq (terms.drop offset) = true ↔
      offset + seq.length ≤ terms.length
        ∧ ∀ i < seq.length,
            Terminal.ptrEq (terms.getD (offset + i) dfltTerm)
              (seq.getD i dfltTerm) = true := by
    rw [startsWithTerms_iff]
    constructor
    · rintro ⟨hlen, hall⟩
      rw [List.length_drop] at hlen
      exact ⟨by omega, fun i hi => (hgetD i) ▸ hall i hi⟩
    · rintro ⟨hlen, hall⟩
      refine ⟨by rw [List.length_drop]; omega, fun i hi => ?_⟩
      rw [hgetD i]; exact hall i hi
  by_cases hs : startsWithTerms seq (terms.drop offset) = true
  · refine ⟨⟨[⟨offset, seq.length⟩]⟩, ?_, ?_, fun _ => rfl, ?_⟩
    · show matchTermPat seq terms offset = _
      rw [matchTermPat, if_pos h, if_pos hs]
    · simp only [Match.matched]
      constructor
      · intro _; exact hchar.mp hs
      · intro _; simp
    · intro hfalse; simp [Match.matched] at hfalse
  · refine ⟨⟨[]⟩, ?_, ?_, ?_, fun _ => rfl⟩
    · show matchTermPat seq terms offset = _
      rw [matchTermPat, if_pos h, if_neg hs]
    · constructor
      · intro htrue; simp [Match.matched] at htrue
      · intro hgood; exact absurd (hchar.mpr hgood) hs
    · intro htrue; simp [Match.matched] at htrue

theorem termsPat_matches_iff_begins_with_witness :
    (0 : Nat) ≤ 1 ∧
      ∃ m : Match,
        matchPattern (.terms [⟨0, "a"⟩]) [⟨0, "a"⟩] 0 = some m
          ∧ (m.matched = true ↔
              0 + 1 ≤ 1
                ∧ ∀ i < 1,
                    Terminal.ptrEq (List.getD [⟨0, "a"⟩] (0 + i) dfltTerm)
                      (List.getD [⟨0, "a"⟩] i dfltTerm) = true)
          ∧ (m.matched = true → m = ⟨[⟨0, 1⟩]⟩)
          ∧ (m.matched = false → m = ⟨[]⟩) := by
  refine ⟨by decide, ?_⟩
  have := termsPat_matches_iff_begins_with [⟨0, "a"⟩] [⟨0, "a"⟩] 0 (by decide)
  simpa using this

/-- Claim C6: evaluating `Or(left, right)` returns the left result whenever
it is matched — for every `right`, so the alternative is never consulted —
and otherwise returns exactly the result of evaluating `right` at the same
offset; no combination of the two results is attempted. -/
theorem orPat_short_circuits
    (left right : Pattern) (terms : List Terminal) (offset : Nat) (lm : Match)
    (h : matchPattern left terms offset = some lm) :
    (lm.matched = true → matchPattern (.or left right) terms offset = some lm)
    ∧ (lm.unmatched = true →
        matchPattern (.or left right) terms offset
          = matchPattern right terms offset) := by
  constructor
  · intro hm
    simp [matchPattern, h, hm]
  · intro hu
    have hm : lm.matched = false := by
      rw [Match.unmatched_eq_not_matched] at hu
      simpa using hu
    simp [matchPattern, h, hm]

theorem orPat_short_circuits_witness :
    matchPattern (.or (.terms []) (.terms [⟨1, "b"⟩])) [] 0 = some ⟨[⟨0, 0⟩]⟩ :=
  (orPat_short_circuits (.terms []) (.terms [⟨1, "b"⟩]) [] 0 ⟨[⟨0, 0⟩]⟩
    (by decide)).1 (by decide)

/-- Claim C10: the empty literal pattern `Terms([])` evaluated through
`match_terms` yields, on every input, the single zero-length segment
`{start: 0, len: 0}`; this result counts as matched even though it covers no
positions, and it is a different value from the unmatched result. -/
theorem empty_terms_yields_zero_length_match (terms : List Terminal) :
    Pattern.match_terms (.terms []) terms = some ⟨[⟨0, 0⟩]⟩
      ∧ Match.matched ⟨[⟨0, 0⟩]⟩ = true
      ∧ Match.unmatched ⟨[⟨0, 0⟩]⟩ = false
      ∧ (⟨[⟨0, 0⟩]⟩ : Match) ≠ ⟨[]⟩ := by
  refine ⟨?_, by decide, by decide, by decide⟩
  show matchTermPat [] terms 0 = _
  rw [matchTermPat, if_pos (Nat.zero_le _)]
  simp [startsWithTerms]

/-! ### Destructuring helpers for `Match` -/

theorem Match.general_start_eq_head (m : Match) (first : MatchSegment)
    (rest : List MatchSegment) (h : m.segments = first :: rest) :
    m.general_start = first.start := by
  cases m with
  | mk segs => cases h; rfl

theorem Match.general_end_eq_concat (m : Match) (init : List MatchSegment)
    (lastSeg : MatchSegment) (h : m.segments = init ++ [lastSeg]) :
    m.general_end = lastSeg.start + lastSeg.len := by
  rw [Match.general_end, h, List.getLast?_concat]

theorem Match.exists_concat_of_matched {m : Match} (hm : m.matched = true) :
    ∃ init lastSeg, m.segments = init ++ [lastSeg] := by
  rcases List.eq_nil_or_concat m.segments with h0 | ⟨L, b, hc⟩
  · exact absurd h0 (Match.matched_iff.mp hm)
  · exact ⟨L, b, by simpa [List.concat_eq_append] using hc⟩

theorem Match.exists_cons_of_not_unmatched {m : Match} (hu : m.unmatched = false) :
    ∃ first rest, m.segments = first :: rest := by
  cases hs : m.segments with
  | nil => rw [Match.unmatched_iff.mpr hs] at hu; cases hu
  | cons a l => exact ⟨a, l, rfl⟩

theorem Match.mergeSegments_eq (lm rm : Match) (init : List MatchSegment)
    (lastSeg first : MatchSegment) (rest : List MatchSegment)
    (hl : lm.segments = init ++ [lastSeg]) (hr : rm.segments = first :: rest) :
    lm.mergeSegments rm =
      ⟨init ++ ⟨lastSeg.start, lastSeg.len + first.len⟩ :: rest⟩ := by
  cases lm with
  | mk ls =>
    cases rm with
    | mk rs =>
      simp only at hl hr
      subst hl; subst hr
      simp [Match.mergeSegments, List.getLast?_concat, List.dropLast_concat]

/-! ### Claim theorem: concatenation -/

/-- Claim C2: `And(left, right)` evaluates `left` at the given offset; if it
is unmatched the whole result is unmatched.  Otherwise `right` is evaluated
at `left`'s `general_end()`; if `right` is unmatched the whole result is
unmatched (the left result is discarded), while if `right` matched with its
`general_start` equal to `left`'s `general_end`, the last segment of `left`
and the first segment of `right` are merged into one segment by summing
lengths and the remaining segments of `right` are appended after it. -/
theorem andPat_concatenation
    (left right : Pattern) (terms : List Terminal) (offset : Nat) (lm : Match)
    (h : matchPattern left terms offset = some lm) :
    (lm.unmatched = true → matchPattern (.and left right) terms offset = some ⟨[]⟩)
    ∧ (lm.matched = true →
        ∀ rm : Match, matchPattern right terms lm.general_end = some rm →
          (rm.unmatched = true →
              matchPattern (.and left right) terms offset = some ⟨[]⟩)
          ∧ (rm.matched = true → rm.general_start = lm.general_end →
              ∀ (init : List MatchSegment) (lastSeg first : MatchSegment)
                  (rest : List MatchSegment),
                lm.segments = init ++ [lastSeg] → rm.segments = first :: rest →
                matchPattern (.and left right) terms offset =
                  some ⟨init ++ ⟨lastSeg.start, lastSeg.len + first.len⟩ :: rest⟩)) := by
  have hand : matchPattern (.and left right) terms offset
      = lm.append fun lm2 => matchPattern right terms lm2.general_end := by
    simp only [matchPattern, h, Option.some_bind]
  constructor
  · intro hu
    have hm : lm.matched = false := by
      rw [Match.unmatched_eq_not_matched] at hu
      simpa using hu
    rw [hand, Match.append, if_neg (by simp [hm]), Match.eq_empty_of_unmatched hu]
  · intro hm rm hrm
    constructor
    · intro hru
      rw [hand, Match.append, if_pos hm, hrm, Option.map_some', if_pos hru,
        Match.eq_empty_of_unmatched hru]
    · intro hrmatched heq init lastSeg first rest hlseg hrseg
      have hru : ¬rm.unmatched = true := by
        rw [Match.unmatched_eq_not_matched]
        simp [hrmatched]
      rw [hand, Match.append, if_pos hm, hrm, Option.map_some', if_neg hru,
        if_pos heq.symm,
        Match.mergeSegments_eq lm rm init lastSeg first rest hlseg hrseg]

theorem andPat_concatenation_witness :
    matchPattern (.and (.terms []) (.terms [])) ([] : List Terminal) 0
      = some ⟨[⟨0, 0 + 0⟩]⟩ := by
  have h := andPat_concatenation (.terms []) (.terms []) [] 0 ⟨[⟨0, 0⟩]⟩
    (by decide)
  have h2 := (h.2 (by decide)) ⟨[⟨0, 0⟩]⟩ (by decide)
  exact (h2.2 (by decide) (by decide)) [] ⟨0, 0⟩ ⟨0, 0⟩ [] rfl rfl

/-! ### Totality and segment bounds of the engine -/

theorem Match.general_end_le_of_bounds {m : Match} {offset len : Nat}
    (hb : ∀ seg ∈ m.segments, offset ≤ seg.start ∧ seg.start + seg.len ≤ len) :
    m.general_end ≤ len := by
  cases hLast : m.segments.getLast? with
  | none => simp [Match.general_end, hLast]
  | some lastSeg =>
    have hmem : lastSeg ∈ m.segments := by
      have hsplit := List.dropLast_append_getLast? lastSeg hLast
      rw [← hsplit]
      exact List.mem_append_right _ (by simp)
    have := (hb lastSeg hmem).2
    simp only [Match.general_end, hLast]
    omega

theorem Match.le_general_end_of_matched {m : Match} {offset len : Nat}
    (hm : m.matched = true)
    (hb : ∀ seg ∈ m.segments, offset ≤ seg.start ∧ seg.start + seg.len ≤ len) :
    offset ≤ m.general_end := by
  obtain ⟨init, lastSeg, hsegs⟩ := Match.exists_concat_of_matched hm
  have hmem : lastSeg ∈ m.segments := by rw [hsegs]; simp
  have := (hb lastSeg hmem).1
  rw [Match.general_end_eq_concat m init lastSeg hsegs]
  omega

/-- Every evaluation started in range stays in range: the result exists (no
panic) and all its segments lie within `[offset, terms.length]`. -/
theorem matchPattern_bounds (p : Pattern) (terms : List Terminal) :
    ∀ offset : Nat, offset ≤ terms.length →
      ∃ m : Match, matchPattern p terms offset = some m ∧
        ∀ seg ∈ m.segments,
          offset ≤ seg.start ∧ seg.start + seg.len ≤ terms.length := by
  induction p with
  | terms pat =>
    intro offset ho
    by_cases hs : startsWithTerms pat (terms.drop offset) = true
    · refine ⟨⟨[⟨offset, pat.length⟩]⟩, ?_, ?_⟩
      · show matchTermPat pat terms offset = _
        rw [matchTermPat, if_pos ho, if_pos hs]
      · intro seg hseg
        have hlen := startsWithTerms_length_le hs
        rw [List.length_drop] at hlen
        simp only [List.mem_singleton] at hseg
        subst hseg
        exact ⟨Nat.le_refl _, show offset + pat.length ≤ terms.length by omega⟩
    · refine ⟨⟨[]⟩, ?_, by simp⟩
      show matchTermPat pat terms offset = _
      rw [matchTermPat, if_pos ho, if_neg hs]
  | nonTerm n =>
    intro offset ho
    by_cases hc :
        (terms.length == offset + 1
          && Option.any (fun t => n.contains t) terms[offset]?) = true
    · refine ⟨⟨[⟨offset, 1⟩]⟩, ?_, ?_⟩
      · show matchNonTermPat n terms offset = _
        rw [matchNonTermPat, if_pos hc]
      · intro seg hseg
        simp only [Bool.and_eq_true, beq_iff_eq] at hc
        simp only [List.mem_singleton] at hseg
        subst hseg
        exact ⟨Nat.le_refl _, show offset + 1 ≤ terms.length by omega⟩
    · refine ⟨⟨[]⟩, ?_, by simp⟩
      show matchNonTermPat n terms offset = _
      rw [matchNonTermPat, if_neg hc]
  | and left right ihl ihr =>
    intro offset ho
    obtain ⟨lm, hl, hbl⟩ := ihl offset ho
    by_cases hm : lm.matched = true
    · have hend_le : lm.general_end ≤ terms.length :=
        Match.general_end_le_of_bounds hbl
      have hstart_le : offset ≤ lm.general_end :=
        Match.le_general_end_of_matched hm hbl
      obtain ⟨rm, hr, hbr⟩ := ihr lm.general_end hend_le
      refine ⟨if rm.unmatched then rm
              else if lm.general_end = rm.general_start then lm.mergeSegments rm
              else lm, ?_, ?_⟩
      · simp only [matchPattern, hl, Option.some_bind, Match.append, if_pos hm,
          hr, Option.map_some']
      · by_cases hru : rm.unmatched = true
        · rw [if_pos hru]
          intro seg hseg
          exact ⟨Nat.le_trans hstart_le (hbr seg hseg).1, (hbr seg hseg).2⟩
        · rw [if_neg hru]
          by_cases heq : lm.general_end = rm.general_start
          · rw [if_pos heq]
            obtain ⟨init, lastSeg, hlseg⟩ := Match.exists_concat_of_matched hm
            obtain ⟨first, rest, hrseg⟩ :=
              Match.exists_cons_of_not_unmatched (by simpa using hru)
            rw [Match.mergeSegments_eq lm rm init lastSeg first rest hlseg hrseg]
            intro seg hseg
            simp only [List.mem_append, List.mem_cons] at hseg
            rcases hseg with hseg | hseg | hseg
            · exact hbl seg (by rw [hlseg]; exact List.mem_append_left _ hseg)
            · subst hseg
              have hlast_mem : lastSeg ∈ lm.segments := by rw [hlseg]; simp
              have hfirst_mem : first ∈ rm.segments := by rw [hrseg]; simp
              have hge := Match.general_end_eq_concat lm init lastSeg hlseg
              have hgs := Match.general_start_eq_head rm first rest hrseg
              have h1 := (hbl lastSeg hlast_mem).1
              have h2 := (hbr first hfirst_mem).2
              constructor
              · simpa using h1
              · simp only
                omega
            · exact ⟨Nat.le_trans hstart_le
                (hbr seg (by rw [hrseg]; simp [hseg])).1,
                (hbr seg (by rw [hrseg]; simp [hseg])).2⟩
          · rw [if_neg heq]
            exact hbl
    · refine ⟨lm, ?_, hbl⟩
      simp only [matchPattern, hl, Option.some_bind, Match.append, if_neg hm]
  | or left right ihl ihr =>
    intro offset ho
    obtain ⟨lm, hl, hbl⟩ := ihl offset ho
    by_cases hm : lm.matched = true
    · refine ⟨lm, ?_, hbl⟩
      simp only [matchPattern, hl, Option.some_bind, if_pos hm]
    · obtain ⟨rm, hr, hbr⟩ := ihr offset ho
      refine ⟨rm, ?_, hbr⟩
      simp only [matchPattern, hl, Option.some_bind, if_neg hm, hr]

/-- Claim C9: evaluation through `match_terms` is total — every recursive
call it makes is at an offset `≤ terms.len()` (rendered here: from any such
offset the evaluation returns a value rather than panicking) and every
returned match has all segments within `[offset, terms.len()]`; in
particular `match_terms` itself (offset `0`) always returns a value. -/
theorem matchTerms_total_and_in_bounds (p : Pattern) (terms : List Terminal) :
    (∀ offset : Nat, offset ≤ terms.length →
        ∃ m : Match, matchPattern p terms offset = some m ∧
          ∀ seg ∈ m.segments,
            offset ≤ seg.start ∧ seg.start + seg.len ≤ terms.length)
    ∧ ∃ m : Match, p.match_terms terms = some m := by
  refine ⟨matchPattern_bounds p terms, ?_⟩
  obtain ⟨m, hm, -⟩ := matchPattern_bounds p terms 0 (Nat.zero_le _)
  exact ⟨m, hm⟩

theorem matchTerms_total_and_in_bounds_witness :
    ∃ m : Match,
      matchPattern (.terms [⟨0, "a"⟩]) [⟨0, "a"⟩] 1 = some m ∧
        ∀ seg ∈ m.segments, 1 ≤ seg.start ∧ seg.start + seg.len ≤ 1 := by
  have h :=
    (matchTerms_total_and_in_bounds (.terms [⟨0, "a"⟩]) [⟨0, "a"⟩]).1 1
      (by decide)
  simpa using h

/-! ### Claim theorem: at most one segment -/

theorem matchPattern_segments_length_le_one (p : Pattern) (terms : List Terminal) :
    ∀ (offset : Nat) (m : Match),
      matchPattern p terms offset = some m → m.segments.length ≤ 1 := by
  induction p with
  | terms pat =>
    intro offset m h
    simp only [matchPattern, matchTermPat] at h
    split at h
    · rw [Option.some_inj] at h
      subst h
      split <;> simp
    · cases h
  | nonTerm n =>
    intro offset m h
    simp only [matchPattern, matchNonTermPat, Option.some_inj] at h
    subst h
    split <;> simp
  | and left right ihl ihr =>
    intro offset m h
    simp only [matchPattern] at h
    cases hl : matchPattern left terms offset with
    | none => rw [hl] at h; cases h
    | some lm =>
      rw [hl, Option.some_bind, Match.append] at h
      by_cases hm : lm.matched = true
      · rw [if_pos hm] at h
        cases hr : matchPattern right terms lm.general_end with
        | none => rw [hr] at h; cases h
        | some rm =>
          rw [hr, Option.map_some', Option.some_inj] at h
          have hlm := ihl offset lm hl
          have hrm := ihr lm.general_end rm hr
          subst h
          by_cases hru : rm.unmatched = true
          · rw [if_pos hru]; exact hrm
          · rw [if_neg hru]
            by_cases heq : lm.general_end = rm.general_start
            · rw [if_pos heq]
              obtain ⟨init, lastSeg, hlseg⟩ := Match.exists_concat_of_matched hm
              obtain ⟨first, rest, hrseg⟩ :=
                Match.exists_cons_of_not_unmatched (by simpa using hru)
              rw [Match.mergeSegments_eq lm rm init lastSeg first rest hlseg hrseg]
              have h1 : init.length + 1 ≤ 1 := by
                rw [hlseg] at hlm; simpa using hlm
              have h2 : rest.length + 1 ≤ 1 := by
                rw [hrseg] at hrm; simpa using hrm
              simp only [List.length_append, List.length_cons]
              omega
            · rw [if_neg heq]; exact hlm
      · rw [if_neg hm, Option.some_inj] at h
        subst h
        exact ihl offset lm hl
  | or left right ihl ihr =>
    intro offset m h
    simp only [matchPattern] at h
    cases hl : matchPattern left terms offset with
    | none => rw [hl] at h; cases h
    | some lm =>
      rw [hl, Option.some_bind] at h
      by_cases hm : lm.matched = true
      · rw [if_pos hm, Option.some_inj] at h
        subst h
        exact ihl offset lm hl
      · rw [if_neg hm] at h
        exact ihr offset m h

/-- Claim C3: for every pattern and input, the `Match` returned by
`match_terms` contains at most one segment — the engine never produces a
`Match` with multiple disjoint unmerged segments, even though the type can
represent one. -/
theorem match_terms_at_most_one_segment
    (p : Pattern) (terms : List Terminal) (m : Match)
    (h : p.match_terms terms = some m) : m.segments.length ≤ 1 :=
  matchPattern_segments_length_le_one p terms 0 m h

theorem match_terms_at_most_one_segment_witness :
    (Match.mk [⟨0, 0⟩]).segments.length ≤ 1 :=
  match_terms_at_most_one_segment (.terms []) [] ⟨[⟨0, 0⟩]⟩ (by decide)

/-! ### Reachability semantics of `contains` -/

/-- Spec-side reachability: `t` is reachable from class `n` by zero or more
nested-class hops — it is identity-equal to a direct `Term` member, or
reachable from some direct `NonTerm` member. -/
inductive Reaches : NonTerminal → Terminal → Prop where
  | direct {n : NonTerminal} {t t' : Terminal} :
      Symbol.term t' ∈ n.members → Terminal.ptrEq t' t = true → Reaches n t
  | nested {n n' : NonTerminal} {t : Terminal} :
      Symbol.nonTerm n' ∈ n.members → Reaches n' t → Reaches n t

theorem membersContain_iff (ms : List Symbol) (t : Terminal) :
    membersContain ms t = true ↔ ∃ s ∈ ms, Symbol.containsTerm s t = true := by
  induction ms with
  | nil => simp [membersContain]
  | cons m rest ih => simp [membersContain, Bool.or_eq_true, ih]

/-- Claim C7: for every class `N` (the member graph is acyclic by
construction of the inductive model, under which `contains` is a total,
terminating function) and terminal `t`, `N.contains(t)` returns `true` iff
`t` is reachable from `N` by zero or more nested-class hops: identity-equal
to a direct `Term` member, or contained recursively in a direct `NonTerm`
member. -/
theorem contains_iff_reaches (n : NonTerminal) (t : Terminal) :
    n.contains t = true ↔ Reaches n t := by
  constructor
  · have main : ∀ (k : Nat) (n : NonTerminal), sizeOf n ≤ k →
        n.contains t = true → Reaches n t := by
      intro k
      induction k with
      | zero =>
        intro n hk
        cases n with
        | mk d ms =>
          simp only [NonTerminal.mk.sizeOf_spec] at hk
          omega
      | succ k ih =>
        intro n hk hc
        cases n with
        | mk d ms =>
          simp only [NonTerminal.contains] at hc
          obtain ⟨s, hs, hsc⟩ := (membersContain_iff ms t).mp hc
          cases s with
          | term t' =>
            exact Reaches.direct (show Symbol.term t' ∈ (NonTerminal.mk d ms).members from hs)
              (by simpa [Symbol.containsTerm] using hsc)
          | nonTerm n' =>
            have h1 := List.sizeOf_lt_of_mem hs
            have h2 : sizeOf (Symbol.nonTerm n') = 1 + sizeOf n' := by
              simp [Symbol.nonTerm.sizeOf_spec]
            have h3 : sizeOf (NonTerminal.mk d ms) = 1 + sizeOf d + sizeOf ms := by
              simp [NonTerminal.mk.sizeOf_spec]
            have hsize : sizeOf n' ≤ k := by omega
            have hc' : n'.contains t = true := by
              simpa [Symbol.containsTerm] using hsc
            exact Reaches.nested
              (show Symbol.nonTerm n' ∈ (NonTerminal.mk d ms).members from hs)
              (ih n' hsize hc')
    exact main (sizeOf n) n (Nat.le_refl _)
  · intro h
    induction h with
    | @direct n1 t1 t2 hmem hptr =>
      cases n1 with
      | mk d ms =>
        simp only [NonTerminal.contains]
        exact (membersContain_iff ms t1).mpr
          ⟨Symbol.term t2, hmem, by simp only [Symbol.containsTerm]; exact hptr⟩
    | @nested n1 n2 t1 hmem _ ih =>
      cases n1 with
      | mk d ms =>
        simp only [NonTerminal.contains]
        exact (membersContain_iff ms t1).mpr
          ⟨Symbol.nonTerm n2, hmem, by simp only [Symbol.containsTerm]; exact ih⟩

/-! ### Claim theorem: terminal identity semantics -/

/-- Claim C8: equality, ordering and hashing of `Terminal`s are by
allocation identity, not textual content: two independent `Terminal::new`
calls (distinct allocations `id1 ≠ id2`) compare unequal even with
identical description text, while any two references to the same instance
compare equal (reflexivity); comparison and hashing likewise depend only on
the allocation. -/
theorem terminal_identity_semantics (id1 id2 : Nat) (d d' : String) :
    (Terminal.ptrEq (Terminal.new id1 d) (Terminal.new id2 d') = (id1 == id2))
    ∧ (∀ t : Terminal, Terminal.ptrEq t t = true)
    ∧ (Terminal.cmp (Terminal.new id1 d) (Terminal.new id2 d') = compare id1 id2)
    ∧ (Terminal.hashOf (Terminal.new id1 d) = Terminal.hashOf (Terminal.new id2 d')
        ↔ id1 = id2) := by
  refine ⟨rfl, ?_, rfl, Iff.rfl⟩
  intro t
  simp [Terminal.ptrEq]


/-! ### Table construction: stability of the sort and last-wins dedup -/

/-- The predicate "entry's description is `d`", used to trace where the
entries of one description end up through `Table::new`. -/
def descIs (d : String) (x : Entry) : Bool :=
  x.desc == d

theorem descIs_iff {d : String} {x : Entry} : descIs d x = true ↔ x.desc = d := by
  simp [descIs]

theorem filter_orderedInsert_pos (d : String) (a : Entry) (ha : a.desc = d)
    (l : List Entry) :
    (List.orderedInsert descLe a l).filter (descIs d)
      = a :: l.filter (descIs d) := by
  induction l with
  | nil => simp [List.orderedInsert, descIs, ha]
  | cons b t ih =>
    rw [List.orderedInsert]
    by_cases hle : descLe a b
    · rw [if_pos hle, List.filter_cons_of_pos (descIs_iff.mpr ha)]
    · rw [if_neg hle]
      have hbd : ¬(descIs d b = true) := by
        rw [descIs_iff]
        intro hb
        exact hle (show a.desc ≤ b.desc by rw [ha, hb])
      rw [List.filter_cons_of_neg hbd, List.filter_cons_of_neg hbd, ih]

theorem filter_orderedInsert_neg (d : String) (a : Entry) (ha : ¬a.desc = d)
    (l : List Entry) :
    (List.orderedInsert descLe a l).filter (descIs d)
      = l.filter (descIs d) := by
  have had : ¬(descIs d a = true) := fun h => ha (descIs_iff.mp h)
  induction l with
  | nil => simp [List.orderedInsert, List.filter_cons_of_neg had]
  | cons b t ih =>
    rw [List.orderedInsert]
    by_cases hle : descLe a b
    · rw [if_pos hle, List.filter_cons_of_neg had]
    · rw [if_neg hle]
      by_cases hbd : descIs d b = true
      · rw [List.filter_cons_of_pos hbd, List.filter_cons_of_pos hbd, ih]
      · rw [List.filter_cons_of_neg hbd, List.filter_cons_of_neg hbd, ih]

/-- Stability of the modelled sort: the subsequence of entries carrying any
fixed description is unchanged, i.e. duplicates keep their input order. -/
theorem filter_sortByDesc (d : String) (l : List Entry) :
    (sortByDesc l).filter (descIs d) = l.filter (descIs d) := by
  simp only [sortByDesc]
  induction l with
  | nil => rfl
  | cons a t ih =>
    rw [List.insertionSort]
    by_cases ha : a.desc = d
    · rw [filter_orderedInsert_pos d a ha, ih,
        List.filter_cons_of_pos (descIs_iff.mpr ha)]
    · rw [filter_orderedInsert_neg d a ha, ih,
        List.filter_cons_of_neg (fun h => ha (descIs_iff.mp h))]

theorem dedupKeepLast_sublist : ∀ l : List Entry, (dedupKeepLast l).Sublist l := by
  intro l
  induction l with
  | nil => simp [dedupKeepLast]
  | cons x t ih =>
    cases t with
    | nil => simp [dedupKeepLast]
    | cons y rest =>
      rw [dedupKeepLast]
      split
      · exact ih.cons x
      · exact ih.cons₂ x

theorem getLast?_cons_of_ne_nil {α : Type _} (x : α) {L : List α} (h : L ≠ []) :
    (x :: L).getLast? = L.getLast? := by
  cases L with
  | nil => exact absurd rfl h
  | cons b t => exact List.getLast?_cons_cons

/-- On a description-sorted list, collapsing adjacent equal descriptions
keeps exactly the last element of each run of equal descriptions. -/
theorem filter_dedupKeepLast (d : String) :
    ∀ l : List Entry, l.Pairwise descLe →
      (dedupKeepLast l).filter (descIs d)
        = ((l.filter (descIs d)).getLast?).toList := by
  intro l
  induction l with
  | nil => intro _; rfl
  | cons x t ih =>
    intro hp
    cases t with
    | nil =>
      by_cases hx : descIs d x = true
      · rw [show dedupKeepLast [x] = [x] from rfl, List.filter_cons_of_pos hx]
        rfl
      · rw [show dedupKeepLast [x] = [x] from rfl, List.filter_cons_of_neg hx]
        rfl
    | cons y rest =>
      obtain ⟨hxall, hp'⟩ := List.pairwise_cons.mp hp
      rw [dedupKeepLast]
      by_cases hxy : x.desc = y.desc
      · rw [if_pos hxy, ih hp']
        by_cases hx : descIs d x = true
        · have hy : descIs d y = true := by
            rw [descIs_iff] at hx ⊢
            rw [← hxy]; exact hx
          rw [List.filter_cons_of_pos hx]
          have hne : (y :: rest).filter (descIs d) ≠ [] := by
            rw [List.filter_cons_of_pos hy]; simp
          rw [getLast?_cons_of_ne_nil _ hne]
        · rw [List.filter_cons_of_neg hx]
      · rw [if_neg hxy]
        by_cases hx : descIs d x = true
        · have hxd : x.desc = d := descIs_iff.mp hx
          obtain ⟨hyall, -⟩ := List.pairwise_cons.mp hp'
          have hnone : ∀ z ∈ y :: rest, ¬(descIs d z = true) := by
            intro z hz
            rw [descIs_iff]
            intro hzd
            rcases List.mem_cons.mp hz with rfl | hzr
            · exact hxy (hxd.trans hzd.symm)
            · have h1 : x.desc ≤ y.desc := hxall y (List.mem_cons_self y rest)
              have h2 : y.desc ≤ z.desc := hyall z hzr
              have h3 : z.desc ≤ x.desc := by rw [hzd, hxd]
              exact hxy (le_antisymm h1 (h2.trans h3))
          have hfil : (y :: rest).filter (descIs d) = [] :=
            List.filter_eq_nil_iff.mpr hnone
          have hfd : (dedupKeepLast (y :: rest)).filter (descIs d) = [] := by
            rw [ih hp', hfil]; rfl
          rw [List.filter_cons_of_pos hx, hfd, List.filter_cons_of_pos hx, hfil]
          rfl
        · rw [List.filter_cons_of_neg hx, ih hp', List.filter_cons_of_neg hx]

/-- Claim C4: `Table::new` produces a table sorted by description with
exactly one entry per distinct description occurring in the input, and for
entries sharing a description the retained one is the last in input order:
for every description `d`, the entries of the result with description `d`
are exactly the last input entry with description `d` (if any). -/
theorem tableNew_sorted_unique_last_wins (l : List Entry) :
    (tableNew l).Pairwise descLe
    ∧ (∀ d : String,
        (tableNew l).filter (descIs d)
          = ((l.filter (descIs d)).getLast?).toList)
    ∧ (∀ d : String, (∃ x ∈ l, x.desc = d) →
        ((tableNew l).filter (descIs d)).length = 1) := by
  have hsorted : (sortByDesc l).Pairwise descLe :=
    List.sorted_insertionSort descLe l
  have hchar : ∀ d : String,
      (tableNew l).filter (descIs d)
        = ((l.filter (descIs d)).getLast?).toList := by
    intro d
    rw [show tableNew l = dedupKeepLast (sortByDesc l) from rfl,
      filter_dedupKeepLast d _ hsorted, filter_sortByDesc]
  refine ⟨List.Pairwise.sublist (dedupKeepLast_sublist _) hsorted, hchar, ?_⟩
  rintro d ⟨x, hx, hxd⟩
  rw [hchar d]
  have hne : l.filter (descIs d) ≠ [] := by
    intro h0
    exact List.filter_eq_nil_iff.mp h0 x hx (descIs_iff.mpr hxd)
  obtain ⟨a, ha⟩ := Option.isSome_iff_exists.mp (List.getLast?_isSome.mpr hne)
  rw [ha]
  rfl

end Phoneshift
